import Mathlib

/-!
Shallow embedding of the permissions_sync reconciliation core
(src/cmd/root.go; near-duplicate variants in src/psync.go and the unnamed
cmd file). The per-group body of rootCmd.Run, the Intersection/Difference
correlator and the GetGitlabGroupMembers fetch filter are translated as
executable Lean functions; Go panics (nil-pointer dereference, index out
of range) are modelled as Option.none.
-/

namespace Psync

/-- A GitLab group member of the AFKL-MCP entitlement group
(gitlab.GroupMember as used for afklMembers in root.go): a user ID and an
optional SAML federated identifier (GroupSAMLIdentity is a nil-able
pointer whose ExternUID field carries the identifier). -/
structure Account where
  id : Int
  saml : Option String
deriving DecidableEq

/-- The GitlabMember struct of root.go lines 29-32: a dev-group member
paired with the SAML federated identifier found for it in the AFKL-MCP
group (root.go lines 94-99 only build these when the identity is non-nil,
so the identifier is a plain string here). Only the user ID of the wrapped
member is relevant to removal, so we keep just that. -/
structure AccessMember where
  userId : Int
  samlid : String
deriving DecidableEq

/-- A raw GitLab group member as returned by ListAllGroupMembers: user ID
and numeric access level. -/
structure RawMember where
  id : Int
  accessLevel : Nat
deriving DecidableEq

/-- A GitLab group as returned by the group search (only the ID is read). -/
structure GGroup where
  id : Int
deriving DecidableEq

/-- gitlab.DeveloperPermissions, the fixed access level assigned by the
AddGroupMember call at root.go lines 114-120. -/
def DeveloperPermissions : Nat := 30

/-- Intersection of root.go lines 198-211: index the elements of a in a
presence map, then emit the elements of b found in the map, in b's order. -/
def Intersection (a b : List String) : List String :=
  b.filter (fun item => a.contains item)

/-- Difference of root.go lines 215-228: index the elements of b in a
presence map, then emit the elements of a absent from the map, in a's
order. -/
def Difference (a b : List String) : List String :=
  a.filter (fun item => !(b.contains item))

/-- afklUids extraction of root.go lines 76-81: the slice is allocated
with one zero-valued ("") entry per member and the entry is overwritten
with the ExternUID only when the SAML identity is non-nil, so a member
with a nil identity contributes the empty string. -/
def afklUidsOf (ms : List Account) : List String :=
  ms.map (fun m => m.saml.getD "")

/-- The correlation loop of root.go lines 88-102: for each dev-group
member, every AFKL-MCP account with a matching user ID and a non-nil SAML
identity yields one correlated AccessMember. -/
def correlateAccess : List RawMember → List Account → List AccessMember
  | [], _ => []
  | glm :: rest, afkl =>
    (afkl.filterMap (fun v =>
      match v.saml with
      | some s => if v.id = glm.id then some (AccessMember.mk glm.id s) else none
      | none => none)) ++ correlateAccess rest afkl

/-- Inner loop of the add-application at root.go lines 113-125, for a
single identifier x: every entitlement account is scanned and
y.GroupSAMLIdentity.ExternUID is dereferenced without a nil check
(line 116), so a nil identity anywhere in the list is a nil-pointer
panic, modelled as none; otherwise the accounts whose identifier equals
x are collected. -/
def addMatches (x : String) : List Account → Option (List Account)
  | [] => some []
  | y :: ys =>
    match y.saml with
    | none => none
    | some s => (addMatches x ys).map (fun rest => if s = x then y :: rest else rest)

/-- Outer loop of the add-application at root.go lines 113-125: resolve
each identifier of usersToAdd against the entitlement accounts. -/
def resolveAdd : List String → List Account → Option (List Account)
  | [], _ => some []
  | x :: xs, ms =>
    match addMatches x ms, resolveAdd xs ms with
    | some first, some rest => some (first ++ rest)
    | _, _ => none

/-- Remove-application loop of root.go lines 134-142: for each identifier
of usersToRemove, every correlated access member with that SAML
identifier is removed. -/
def resolveRemove : List String → List AccessMember → List AccessMember
  | [], _ => []
  | i :: is, ams => ams.filter (fun m => m.samlid == i) ++ resolveRemove is ams

/-- usersToAdd of root.go lines 104-106:
Difference(Intersection(g.Users, afklUids), glabgroupUids). The
glabgroupUids list is exactly the samlid projection of the correlated
access members, since root.go lines 95-99 append to both in lockstep
(lemma map_samlid_correlateAccess below). -/
def usersToAddOf (users : List String) (ents : List Account)
    (access : List AccessMember) : List String :=
  Difference (Intersection users (afklUidsOf ents)) (access.map (fun m => m.samlid))

/-- usersToRemove of root.go line 127:
Intersection(g.Deprovisioned, glabgroupUids). -/
def usersToRemoveOf (deprov : List String) (access : List AccessMember) : List String :=
  Intersection deprov (access.map (fun m => m.samlid))

/-- The per-group reconciliation of root.go lines 104-142, at the
interface of the spec's reconcile: directory-eligible identifiers,
deprovisioned identifiers, the entitlement accounts (afklMembers) and the
correlated current access members. It returns the AddPlan (none when the
add loop panics on a nil SAML identity) and the RemovePlan. -/
def reconcile (users deprov : List String) (ents : List Account)
    (access : List AccessMember) : Option (List Account) × List AccessMember :=
  (resolveAdd (usersToAddOf users ents access) ents,
   resolveRemove (usersToRemoveOf deprov access) access)

/-- GetGitlabGroupMembers of root.go lines 175-194, shallowly embedded
over the two network results: the group-search result list and the
member-listing function. The code reads groups[0].ID unconditionally
(line 181), so an empty search result is an index-out-of-range panic,
modelled as none; members are filtered to access level strictly below 50
(line 189). -/
def GetGitlabGroupMembers (groups : List GGroup)
    (listMembers : Int → List RawMember) : Option (List RawMember × Int) :=
  match groups with
  | [] => none
  | g :: _ =>
    some ((listMembers g.id).filter (fun u => u.accessLevel < 50), g.id)

/-- Effect on the access-group membership of applying one pass's plans:
the RemovePlan members are removed and each AddPlan account is inserted
as a member carrying its own federated identifier (the AddGroupMember
call at root.go lines 117-120 adds the matched entitlement account's
user). -/
def applyPlans (access : List AccessMember) (addP : List Account)
    (remP : List AccessMember) : List AccessMember :=
  access.filter (fun m => decide (¬ m ∈ remP))
    ++ addP.map (fun a => AccessMember.mk a.id (a.saml.getD ""))

lemma mem_Intersection {a b : List String} {x : String} :
    x ∈ Intersection a b ↔ x ∈ b ∧ x ∈ a := by
  simp [Intersection]

lemma mem_Difference {a b : List String} {x : String} :
    x ∈ Difference a b ↔ x ∈ a ∧ x ∉ b := by
  simp [Difference]

lemma mem_usersToAddOf {users : List String} {ents : List Account}
    {access : List AccessMember} {x : String} :
    x ∈ usersToAddOf users ents access ↔
      (x ∈ afklUidsOf ents ∧ x ∈ users) ∧
        x ∉ access.map (fun m => m.samlid) := by
  simp [usersToAddOf, mem_Difference, mem_Intersection]

lemma mem_usersToRemoveOf {deprov : List String} {access : List AccessMember}
    {x : String} :
    x ∈ usersToRemoveOf deprov access ↔
      x ∈ access.map (fun m => m.samlid) ∧ x ∈ deprov := by
  simp [usersToRemoveOf, mem_Intersection]

/-- The glabgroupUids slice and the glabgroupMembers slice of root.go
lines 88-102 are appended to in lockstep with the same identifier, so
the former is the samlid projection of the latter. -/
lemma map_samlid_correlateAccess (glabgroup : List RawMember) (afkl : List Account) :
    (correlateAccess glabgroup afkl).map (fun m => m.samlid) =
      glabgroup.flatMap (fun glm => afkl.filterMap (fun v =>
        match v.saml with
        | some s => if v.id = glm.id then some s else none
        | none => none)) := by
  induction glabgroup with
  | nil => rfl
  | cons glm rest ih =>
    simp only [correlateAccess, List.map_append, ih, List.flatMap_cons,
      List.map_filterMap]
    congr 1
    apply List.filterMap_congr
    intro v _
    cases h : v.saml with
    | none => rfl
    | some s => by_cases hid : v.id = glm.id <;> simp [hid]

lemma addMatches_none_of_mem {x : String} {ms : List Account} {m : Account}
    (hm : m ∈ ms) (hs : m.saml = none) : addMatches x ms = none := by
  induction ms with
  | nil => cases hm
  | cons y ys ih =>
    rcases List.mem_cons.mp hm with h | h
    · subst h
      simp [addMatches, hs]
    · cases hy : y.saml with
      | none => simp [addMatches, hy]
      | some s => simp [addMatches, hy, ih h]

lemma mem_of_addMatches_some {x : String} {ms : List Account} {l : List Account}
    (h : addMatches x ms = some l) {a : Account} :
    a ∈ l ↔ a ∈ ms ∧ a.saml = some x := by
  induction ms generalizing l with
  | nil =>
    simp only [addMatches, Option.some.injEq] at h
    subst h
    simp
  | cons y ys ih =>
    cases hy : y.saml with
    | none => simp [addMatches, hy] at h
    | some s =>
      simp only [addMatches, hy, Option.map_eq_some'] at h
      obtain ⟨rest, hrest, hl⟩ := h
      subst hl
      by_cases hsx : s = x
      · rw [if_pos hsx]
        subst hsx
        simp only [List.mem_cons, ih hrest]
        constructor
        · rintro (rfl | ⟨h1, h2⟩)
          · exact ⟨Or.inl rfl, hy⟩
          · exact ⟨Or.inr h1, h2⟩
        · rintro ⟨h1, h2⟩
          rcases h1 with rfl | h1
          · exact Or.inl rfl
          · exact Or.inr ⟨h1, h2⟩
      · rw [if_neg hsx]
        simp only [ih hrest, List.mem_cons]
        constructor
        · rintro ⟨h1, h2⟩
          exact ⟨Or.inr h1, h2⟩
        · rintro ⟨h1, h2⟩
          rcases h1 with rfl | h1
          · rw [hy] at h2
            exact absurd (Option.some.inj h2) hsx
          · exact ⟨h1, h2⟩

lemma resolveAdd_none_of_mem {xs : List String} {ms : List Account} {m : Account}
    (hxs : xs ≠ []) (hm : m ∈ ms) (hs : m.saml = none) :
    resolveAdd xs ms = none := by
  cases xs with
  | nil => exact absurd rfl hxs
  | cons x xs => simp [resolveAdd, addMatches_none_of_mem hm hs]

lemma mem_of_resolveAdd_some {xs : List String} {ms : List Account}
    {l : List Account} (h : resolveAdd xs ms = some l) {a : Account} :
    a ∈ l ↔ ∃ x, x ∈ xs ∧ a ∈ ms ∧ a.saml = some x := by
  induction xs generalizing l with
  | nil =>
    simp only [resolveAdd, Option.some.injEq] at h
    subst h
    simp
  | cons x xs ih =>
    simp only [resolveAdd] at h
    cases h1 : addMatches x ms with
    | none => rw [h1] at h; cases h
    | some first =>
      cases h2 : resolveAdd xs ms with
      | none => rw [h1, h2] at h; cases h
      | some rest =>
        rw [h1, h2] at h
        simp only [Option.some.injEq] at h
        subst h
        simp only [List.mem_append, mem_of_addMatches_some h1, ih h2,
          List.mem_cons]
        constructor
        · rintro (⟨h3, h4⟩ | ⟨y, hy, h3, h4⟩)
          · exact ⟨x, Or.inl rfl, h3, h4⟩
          · exact ⟨y, Or.inr hy, h3, h4⟩
        · rintro ⟨y, rfl | hy, h3, h4⟩
          · exact Or.inl ⟨h3, h4⟩
          · exact Or.inr ⟨y, hy, h3, h4⟩

lemma mem_resolveRemove {ids : List String} {ams : List AccessMember}
    {m : AccessMember} :
    m ∈ resolveRemove ids ams ↔ m ∈ ams ∧ m.samlid ∈ ids := by
  induction ids with
  | nil => simp [resolveRemove]
  | cons i is ih =>
    simp only [resolveRemove, List.mem_append, List.mem_filter, ih,
      List.mem_cons, beq_iff_eq]
    constructor
    · rintro (⟨h1, h2⟩ | ⟨h1, h2⟩)
      · exact ⟨h1, Or.inl h2⟩
      · exact ⟨h1, Or.inr h2⟩
    · rintro ⟨h1, h2 | h2⟩
      · exact Or.inl ⟨h1, h2⟩
      · exact Or.inr ⟨h1, h2⟩

/-- C1: for every input the add-set is the difference between
(upstreamEligible intersected with the federated identifiers of the
entitlement set) and the federated identifiers of the access members, and
the remove-set is upstreamDeprovisioned intersected with the federated
identifiers of the access members; in particular, for
upstreamEligible={u1}, upstreamDeprovisioned={u2}, entitlement accounts
{(a1,u1),(a2,u2)} and access members {(b2,u2)}, the reconciliation
returns AddPlan={a1} and RemovePlan={b2}. -/
theorem reconcile_computes_plan_sets
    (users deprov : List String) (ents : List Account)
    (access : List AccessMember) (x : String) :
    (x ∈ usersToAddOf users ents access ↔
      x ∈ users ∧ x ∈ afklUidsOf ents ∧
        x ∉ access.map (fun m => m.samlid)) ∧
    (x ∈ usersToRemoveOf deprov access ↔
      x ∈ deprov ∧ x ∈ access.map (fun m => m.samlid)) ∧
    reconcile ["u1"] ["u2"]
        [Account.mk 1 (some "u1"), Account.mk 2 (some "u2")]
        [AccessMember.mk 5 "u2"]
      = (some [Account.mk 1 (some "u1")], [AccessMember.mk 5 "u2"]) := by
  refine ⟨?_, ?_, by decide⟩
  · rw [mem_usersToAddOf]
    tauto
  · rw [mem_usersToRemoveOf]
    tauto

/-- C3: every account in a returned AddPlan has a federated identifier
that is a member of upstreamEligible and equals the federated identifier
of some entitlement account; consequently an eligible identifier with no
entitlement account never appears in AddPlan. -/
theorem addPlan_requires_eligibility_and_entitlement
    (users deprov : List String) (ents : List Account)
    (access : List AccessMember) (addP : List Account)
    (remP : List AccessMember)
    (h : reconcile users deprov ents access = (some addP, remP)) :
    (∀ a ∈ addP, ∃ x, a.saml = some x ∧ x ∈ users ∧
      ∃ e ∈ ents, e.saml = some x) ∧
    ∀ x ∈ users, (∀ e ∈ ents, e.saml ≠ some x) →
      ∀ a ∈ addP, a.saml ≠ some x := by
  have h1 : resolveAdd (usersToAddOf users ents access) ents = some addP :=
    congrArg Prod.fst h
  constructor
  · intro a ha
    obtain ⟨x, hx, hae, hs⟩ := (mem_of_resolveAdd_some h1).mp ha
    exact ⟨x, hs, (mem_usersToAddOf.mp hx).1.2, a, hae, hs⟩
  · intro x hx hne a ha hs
    obtain ⟨y, _, hae, _⟩ := (mem_of_resolveAdd_some h1).mp ha
    exact hne a hae hs

theorem addPlan_requires_eligibility_and_entitlement_witness :
    (∀ a ∈ ([Account.mk 1 (some "u1")] : List Account), ∃ x, a.saml = some x ∧
      x ∈ ["u1"] ∧ ∃ e ∈ ([Account.mk 1 (some "u1")] : List Account),
        e.saml = some x) ∧
    ∀ x ∈ ["u1"], (∀ e ∈ ([Account.mk 1 (some "u1")] : List Account),
        e.saml ≠ some x) →
      ∀ a ∈ ([Account.mk 1 (some "u1")] : List Account), a.saml ≠ some x :=
  addPlan_requires_eligibility_and_entitlement ["u1"] []
    [Account.mk 1 (some "u1")] [] [Account.mk 1 (some "u1")] [] (by decide)

/-- C4: for every input, overlapping upstream sets included, no federated
identifier occurs both in the AddPlan and in the RemovePlan of one pass. -/
theorem plans_disjoint
    (users deprov : List String) (ents : List Account)
    (access : List AccessMember) (addP : List Account)
    (remP : List AccessMember)
    (h : reconcile users deprov ents access = (some addP, remP)) :
    ∀ x, (∃ a ∈ addP, a.saml = some x) → ∀ r ∈ remP, r.samlid ≠ x := by
  have h1 : resolveAdd (usersToAddOf users ents access) ents = some addP :=
    congrArg Prod.fst h
  have h2 : resolveRemove (usersToRemoveOf deprov access) access = remP :=
    congrArg Prod.snd h
  rintro x ⟨a, ha, hs⟩ r hr hrx
  obtain ⟨y, hy, _, hsy⟩ := (mem_of_resolveAdd_some h1).mp ha
  rw [hs] at hsy
  obtain rfl : x = y := Option.some.inj hsy
  have hnacc : x ∉ access.map (fun m => m.samlid) := (mem_usersToAddOf.mp hy).2
  rw [← h2] at hr
  have hracc : r.samlid ∈ access.map (fun m => m.samlid) :=
    List.mem_map.mpr ⟨r, (mem_resolveRemove.mp hr).1, rfl⟩
  rw [hrx] at hracc
  exact hnacc hracc

theorem plans_disjoint_witness :
    (AccessMember.mk 5 "u2").samlid ≠ "u1" :=
  plans_disjoint ["u1"] ["u2"]
    [Account.mk 1 (some "u1"), Account.mk 2 (some "u2")]
    [AccessMember.mk 5 "u2"] [Account.mk 1 (some "u1")]
    [AccessMember.mk 5 "u2"] (by decide) "u1"
    ⟨Account.mk 1 (some "u1"), by decide, rfl⟩
    (AccessMember.mk 5 "u2") (by decide)

/-- C5 counterexample: the fetched member views are not filtered to
privilege levels strictly below the grant level
(gitlab.DeveloperPermissions = 30): a member at access level 40, which is
at or above the grant level, passes the AccessLevel < 50 filter of
root.go line 189 and is admitted. -/
theorem member_at_or_above_grant_admitted :
    GetGitlabGroupMembers [GGroup.mk 7] (fun _ => [RawMember.mk 5 40]) =
      some ([RawMember.mk 5 40], 7) ∧ ¬ (40 < DeveloperPermissions) :=
  ⟨by decide, by decide⟩

/-- C5 amended: every account admitted into a fetched member view has a
privilege level strictly below 50, the owner tier, rather than strictly
below the grant level DeveloperPermissions = 30 that AddPlan mutations
assign. -/
theorem fetched_members_below_owner
    (groups : List GGroup) (listMembers : Int → List RawMember)
    (ms : List RawMember) (i : Int)
    (h : GetGitlabGroupMembers groups listMembers = some (ms, i)) :
    ∀ u ∈ ms, u.accessLevel < 50 := by
  cases groups with
  | nil => cases h
  | cons g gs =>
    simp only [GetGitlabGroupMembers, Option.some.injEq, Prod.mk.injEq] at h
    intro u hu
    rw [← h.1] at hu
    have := (List.mem_filter.mp hu).2
    simpa using this

theorem fetched_members_below_owner_witness :
    (RawMember.mk 5 40).accessLevel < 50 :=
  fetched_members_below_owner [GGroup.mk 7]
    (fun _ => [RawMember.mk 5 40, RawMember.mk 6 50]) [RawMember.mk 5 40] 7
    (by decide) (RawMember.mk 5 40) (by decide)

/-- C6 counterexample: an entitlement account with an empty federated
identifier is not silently excluded from correlation: when the empty
string occurs in upstreamEligible (and the account is not yet an access
member), the account is matched and placed in AddPlan. -/
theorem emptyId_account_reaches_addPlan :
    reconcile [""] [] [Account.mk 1 (some "")] [] =
      (some [Account.mk 1 (some "")], []) := by
  decide

/-- C6 amended: provided the empty string is not itself a member of
upstreamEligible or upstreamDeprovisioned, an entitlement account whose
federated identifier is missing (nil) or empty contributes only the
unmatchable empty identifier: that identifier enters neither usersToAdd
nor usersToRemove, and the account is in no returned AddPlan. -/
theorem emptyId_account_excluded
    (users deprov : List String) (ents : List Account)
    (access : List AccessMember) (a : Account)
    (_ha : a ∈ ents) (hid : a.saml = none ∨ a.saml = some "")
    (he : "" ∉ users) (hd : "" ∉ deprov) :
    "" ∉ usersToAddOf users ents access ∧
    "" ∉ usersToRemoveOf deprov access ∧
    ∀ addP, (reconcile users deprov ents access).1 = some addP → a ∉ addP := by
  refine ⟨fun hmem => he (mem_usersToAddOf.mp hmem).1.2,
    fun hmem => hd (mem_usersToRemoveOf.mp hmem).2, ?_⟩
  intro addP hP haP
  have hP' : resolveAdd (usersToAddOf users ents access) ents = some addP := hP
  obtain ⟨x, hx, _, hs⟩ := (mem_of_resolveAdd_some hP').mp haP
  rcases hid with hn | hn
  · rw [hn] at hs
    cases hs
  · rw [hn] at hs
    obtain rfl : "" = x := Option.some.inj hs
    exact he (mem_usersToAddOf.mp hx).1.2

theorem emptyId_account_excluded_witness :
    "" ∉ usersToAddOf ["u1"] [Account.mk 1 none] [] ∧
    "" ∉ usersToRemoveOf ["u2"] [] ∧
    ∀ addP, (reconcile ["u1"] ["u2"] [Account.mk 1 none] []).1 = some addP →
      Account.mk 1 none ∉ addP :=
  emptyId_account_excluded ["u1"] ["u2"] [Account.mk 1 none] []
    (Account.mk 1 none) (by decide) (Or.inl rfl) (by decide) (by decide)

/-- C7 (code bug): the spec declares the reconciliation total and
error-free over its whole input domain, nil federated identity records
included, but the add loop (root.go line 116) dereferences
GroupSAMLIdentity without the nil check used everywhere else: with
eligible identifier u1, entitlement accounts (1,u1) and (2,nil) and no
current access, plan computation hits a nil-pointer panic, modelled as
none, instead of returning plans. -/
theorem reconcile_panics_on_nil_saml :
    (reconcile ["u1"] []
      [Account.mk 1 (some "u1"), Account.mk 2 none] []).1 = none := by
  decide

/-- C8 counterexample: there is no deprovisioned-takes-precedence
tie-break: an identifier in both upstreamEligible and
upstreamDeprovisioned that is entitled but holds no current access
produces an AddPlan entry and no RemovePlan entry. -/
theorem overlap_added_not_removed :
    reconcile ["u"] ["u"] [Account.mk 1 (some "u")] [] =
      (some [Account.mk 1 (some "u")], []) := by
  decide

/-- C8 amended: the tie-break for an identifier in both upstream sets is
deterministic but depends on current access instead of always preferring
removal: with current access the identifier is removed and not added;
without current access it is not removed, and is added whenever it is
entitled. -/
theorem overlap_tiebreak_depends_on_access
    (users deprov : List String) (ents : List Account)
    (access : List AccessMember) (x : String)
    (he : x ∈ users) (hd : x ∈ deprov) :
    (x ∈ access.map (fun m => m.samlid) →
      x ∉ usersToAddOf users ents access ∧
        x ∈ usersToRemoveOf deprov access) ∧
    (x ∉ access.map (fun m => m.samlid) →
      x ∉ usersToRemoveOf deprov access ∧
        (x ∈ afklUidsOf ents → x ∈ usersToAddOf users ents access)) := by
  constructor
  · intro hacc
    exact ⟨fun hmem => (mem_usersToAddOf.mp hmem).2 hacc,
      mem_usersToRemoveOf.mpr ⟨hacc, hd⟩⟩
  · intro hacc
    exact ⟨fun hmem => hacc (mem_usersToRemoveOf.mp hmem).1,
      fun hent => mem_usersToAddOf.mpr ⟨⟨hent, he⟩, hacc⟩⟩

theorem overlap_tiebreak_depends_on_access_witness :
    (("u" : String) ∈
        ([AccessMember.mk 5 "u"] : List AccessMember).map (fun m => m.samlid) →
      "u" ∉ usersToAddOf ["u"] [Account.mk 1 (some "u")] [AccessMember.mk 5 "u"] ∧
        "u" ∈ usersToRemoveOf ["u"] [AccessMember.mk 5 "u"]) ∧
    (("u" : String) ∉
        ([AccessMember.mk 5 "u"] : List AccessMember).map (fun m => m.samlid) →
      "u" ∉ usersToRemoveOf ["u"] [AccessMember.mk 5 "u"] ∧
        ("u" ∈ afklUidsOf [Account.mk 1 (some "u")] →
          "u" ∈ usersToAddOf ["u"] [Account.mk 1 (some "u")]
            [AccessMember.mk 5 "u"])) :=
  overlap_tiebreak_depends_on_access ["u"] ["u"] [Account.mk 1 (some "u")]
    [AccessMember.mk 5 "u"] "u" (by decide) (by decide)

/-- C9: the correlator is deterministic given fixed input iteration
order: Intersection depends on its indexed first argument only through
membership (the iteration order of the presence map built from it cannot
influence the output) and emits a sublist of its second argument in that
argument's order; symmetrically, Difference depends on its indexed second
argument only through membership and emits a sublist of its first
argument. -/
theorem correlator_deterministic
    (a a' b b' : List String)
    (ha1 : ∀ x ∈ a, x ∈ a') (ha2 : ∀ x ∈ a', x ∈ a)
    (hb1 : ∀ x ∈ b, x ∈ b') (hb2 : ∀ x ∈ b', x ∈ b) :
    Intersection a b = Intersection a' b ∧
    Difference a b = Difference a b' ∧
    List.Sublist (Intersection a b) b ∧
    List.Sublist (Difference a b) a := by
  have hcont : ∀ (l l' : List String), (∀ x ∈ l, x ∈ l') →
      (∀ x ∈ l', x ∈ l) → ∀ x : String, l.contains x = l'.contains x := by
    intro l l' h1 h2 x
    by_cases hx : x ∈ l
    · simp [List.elem_eq_mem, hx, h1 x hx]
    · have hx' : x ∉ l' := fun hmem => hx (h2 x hmem)
      simp [List.elem_eq_mem, hx, hx']
  refine ⟨?_, ?_, List.filter_sublist b, List.filter_sublist a⟩
  · exact List.filter_congr (fun x _ => hcont a a' ha1 ha2 x)
  · exact List.filter_congr (fun x _ => by rw [hcont b b' hb1 hb2 x])

theorem correlator_deterministic_witness :
    Intersection ["x", "y"] ["x", "z"] = Intersection ["y", "x", "x"] ["x", "z"] ∧
    Difference ["x", "y"] ["x", "z"] = Difference ["x", "y"] ["z", "z", "x"] ∧
    List.Sublist (Intersection ["x", "y"] ["x", "z"]) ["x", "z"] ∧
    List.Sublist (Difference ["x", "y"] ["x", "z"]) ["x", "y"] :=
  correlator_deterministic ["x", "y"] ["y", "x", "x"] ["x", "z"] ["z", "z", "x"]
    (by decide) (by decide) (by decide) (by decide)

/-- C10: GetGitlabGroupMembers reads the identifier of the first element
of the group-search result unconditionally: an empty search result is an
index-out-of-range panic (modelled as none) rather than an error value or
an empty membership, and a nonempty result always yields the head
group's identifier together with its filtered member list. -/
theorem getGitlabGroupMembers_empty_search_panics
    (listMembers : Int → List RawMember) :
    GetGitlabGroupMembers [] listMembers = none ∧
    ∀ (g : GGroup) (gs : List GGroup),
      GetGitlabGroupMembers (g :: gs) listMembers =
        some ((listMembers g.id).filter (fun u => u.accessLevel < 50), g.id) :=
  ⟨rfl, fun _ _ => rfl⟩

lemma Difference_eq_nil {a b : List String} (h : ∀ x ∈ a, x ∈ b) :
    Difference a b = [] := by
  apply List.filter_eq_nil_iff.mpr
  intro x hx
  simp [h x hx]

lemma Intersection_eq_nil {a b : List String} (h : ∀ x ∈ b, x ∉ a) :
    Intersection a b = [] := by
  apply List.filter_eq_nil_iff.mpr
  intro x hx
  simp [h x hx]

lemma mem_map_samlid_applyPlans {access remP : List AccessMember}
    {addP : List Account} {x : String} :
    x ∈ (applyPlans access addP remP).map (fun m => m.samlid) ↔
      ((∃ m, (m ∈ access ∧ m ∉ remP) ∧ m.samlid = x) ∨
       (∃ a, a ∈ addP ∧ a.saml.getD "" = x)) := by
  simp [applyPlans, List.mem_filter, Function.comp]

/-- C2 counterexample: idempotence fails on an input where the upstream
sets overlap: with eligible={u}, deprovisioned={u}, entitlement account
(1,u) and access member (5,u), the first pass removes the access member,
and the second call on the updated membership (other inputs unchanged)
returns a nonempty AddPlan that re-adds the account. -/
theorem reconcile_not_idempotent_on_overlap :
    reconcile ["u"] ["u"] [Account.mk 1 (some "u")] [AccessMember.mk 5 "u"] =
      (some [], [AccessMember.mk 5 "u"]) ∧
    reconcile ["u"] ["u"] [Account.mk 1 (some "u")]
        (applyPlans [AccessMember.mk 5 "u"] [] [AccessMember.mk 5 "u"]) =
      (some [Account.mk 1 (some "u")], []) :=
  ⟨by decide, by decide⟩

/-- C2 amended: idempotence holds for inputs satisfying the data-model
invariant that upstreamEligible and upstreamDeprovisioned are disjoint:
whenever a first call returns its plans (does not panic), applying them
to the access-group membership and reconciling again with the other
three inputs unchanged yields an empty AddPlan and an empty RemovePlan. -/
theorem reconcile_idempotent
    (users deprov : List String) (ents : List Account)
    (access : List AccessMember) (addP : List Account)
    (remP : List AccessMember)
    (hdisj : ∀ x ∈ users, x ∉ deprov)
    (h : reconcile users deprov ents access = (some addP, remP)) :
    reconcile users deprov ents (applyPlans access addP remP) =
      (some [], []) := by
  have h1 : resolveAdd (usersToAddOf users ents access) ents = some addP :=
    congrArg Prod.fst h
  have h2 : resolveRemove (usersToRemoveOf deprov access) access = remP :=
    congrArg Prod.snd h
  have hta2 : usersToAddOf users ents (applyPlans access addP remP) = [] := by
    rw [usersToAddOf]
    apply Difference_eq_nil
    intro x hx
    obtain ⟨hxe, hxu⟩ := mem_Intersection.mp hx
    by_cases hacc : x ∈ access.map (fun m => m.samlid)
    · obtain ⟨m, hm, hmx⟩ := List.mem_map.mp hacc
      apply mem_map_samlid_applyPlans.mpr
      refine Or.inl ⟨m, ⟨hm, ?_⟩, hmx⟩
      intro hmr
      rw [← h2] at hmr
      have hmtr := (mem_resolveRemove.mp hmr).2
      have hxd := (mem_usersToRemoveOf.mp hmtr).2
      rw [hmx] at hxd
      exact hdisj x hxu hxd
    · have hxtA : x ∈ usersToAddOf users ents access :=
        mem_usersToAddOf.mpr ⟨⟨hxe, hxu⟩, hacc⟩
      obtain ⟨e, he, hge⟩ := List.mem_map.mp hxe
      cases hes : e.saml with
      | none =>
        have hnone : resolveAdd (usersToAddOf users ents access) ents = none :=
          resolveAdd_none_of_mem
            (fun hnil => by rw [hnil] at hxtA; cases hxtA) he hes
        rw [h1] at hnone
        cases hnone
      | some s =>
        rw [hes] at hge
        simp only [Option.getD_some] at hge
        subst hge
        have heP : e ∈ addP :=
          (mem_of_resolveAdd_some h1).mpr ⟨s, hxtA, he, hes⟩
        apply mem_map_samlid_applyPlans.mpr
        exact Or.inr ⟨e, heP, by rw [hes]; rfl⟩
  have htr2 : usersToRemoveOf deprov (applyPlans access addP remP) = [] := by
    rw [usersToRemoveOf]
    apply Intersection_eq_nil
    intro x hx
    rcases mem_map_samlid_applyPlans.mp hx with
      ⟨m, ⟨hm, hnr⟩, hmx⟩ | ⟨a, ha, hax⟩
    · intro hxd
      apply hnr
      rw [← h2]
      apply mem_resolveRemove.mpr
      refine ⟨hm, mem_usersToRemoveOf.mpr
        ⟨List.mem_map.mpr ⟨m, hm, rfl⟩, ?_⟩⟩
      rw [hmx]
      exact hxd
    · obtain ⟨y, hy, _, hsy⟩ := (mem_of_resolveAdd_some h1).mp ha
      have hyu : y ∈ users := (mem_usersToAddOf.mp hy).1.2
      rw [hsy] at hax
      simp only [Option.getD_some] at hax
      rw [← hax]
      exact hdisj y hyu
  show (resolveAdd (usersToAddOf users ents (applyPlans access addP remP)) ents,
    resolveRemove (usersToRemoveOf deprov (applyPlans access addP remP))
      (applyPlans access addP remP)) = (some [], [])
  rw [hta2, htr2]
  rfl

theorem reconcile_idempotent_witness :
    reconcile ["u1"] ["u2"]
        [Account.mk 1 (some "u1"), Account.mk 2 (some "u2")]
        (applyPlans [AccessMember.mk 5 "u2"] [Account.mk 1 (some "u1")]
          [AccessMember.mk 5 "u2"]) = (some [], []) :=
  reconcile_idempotent ["u1"] ["u2"]
    [Account.mk 1 (some "u1"), Account.mk 2 (some "u2")]
    [AccessMember.mk 5 "u2"] [Account.mk 1 (some "u1")]
    [AccessMember.mk 5 "u2"] (by decide) (by decide)

end Psync
